import Mathlib

/-!
The sine oscillator of `src/wasmOscBank.c`.

A shallow embedding of the per-instance oscillator state, of its constructor
`connectAudioWorkletProcessor` and of the audio callback `ProcessAudio`, and the properties
proved of them.

Modelling conventions.

* The code is written over a type `F` for the C `float` and a type `D` for the C `double`,
  which only have the operations the source uses on them: `+` and `*` on `float`, `*` and
  `/` on `double`, the conversion of an `int`, the decimal literals, the promotion
  `toDouble` of a `float` operand and the narrowing `toFloat` of a `double` that is assigned
  to a `float`.  No law of arithmetic is assumed there, so what is proved at this level
  holds for IEEE arithmetic as well: which stores are made, in which order, and which
  expressions they store.
* `emscripten_math_sin` and `emscripten_math_fmod` are library functions of the host, on
  `double`; they are parameters of the code.
* The numerical statements are about exact arithmetic: `F` and `D` are one linearly ordered
  field with a floor function (`ℚ` for evaluation, `ℝ` for statements about the real sine),
  the two conversions are the identity and `emscripten_math_fmod` is `fmod`, the remainder
  of the truncated division of C.  Rounding, infinities and NaN are outside these
  statements.  Every such theorem that does not name `Real.sin` holds for any function in
  the place of the sine.
* `Binary32` and `Binary64` are the finite values of the two IEEE formats, every operation
  rounded to nearest, ties to even.  They show where rounding decides a statement.
* `PI` is the constant the source defines, the decimal `3.14159265359`; "2π" in the statements
  below is the program's `2.f * PI`.
* The `int` counters and counts (`numOutputs`, `numberOfChannels`, `samplesPerChannel`,
  `o`, `i`, `ch`) are natural numbers; a buffer offset `ch * samplesPerChannel + i` that is
  in range of an allocated `float` array is far below `2^31`.
* A store `outputs[o].data[idx] = v` is checked: it fails (`none`) when `o` is not a bus of
  `outputs` or `idx` is not an offset of its `data`, and it is recorded, in program order,
  in a log of `(bus, offset)` pairs.
* The unused arguments `numInputs`, `inputs` and `numParams` of `ProcessAudio` are left out.
-/

namespace WasmOscBank

/-! ## Data model -/

/-- Per-oscillator state (`OscillatorState` of the source). -/
structure OscillatorState (F : Type) where
  phase : F
  phaseIncrement : F
  currentVolume : F

/-- One output bus: `numberOfChannels` planar channels of `samplesPerChannel` samples. -/
structure AudioSampleFrame (F : Type) where
  numberOfChannels : Nat
  samplesPerChannel : Nat
  data : List F

/-- One audio parameter of a block: `length` values (1 or 128). -/
structure AudioParamFrame (F : Type) where
  length : Nat
  data : List F

/-- What `connectAudioWorkletProcessor` hands to the host: the instance state and the
options of the node it creates. -/
structure WorkletNode (F : Type) where
  state : OscillatorState F
  numberOfInputs : Nat
  numberOfOutputs : Nat
  outputChannelCounts : List Nat

/-- Registers of the two inner loops while one bus is filled. -/
structure BusRun (F : Type) where
  state : OscillatorState F
  data : List F
  stores : List (Nat × Nat)

/-- Registers of the bus loop: the state, all the buses, the log of stores. -/
structure Machine (F : Type) where
  state : OscillatorState F
  outputs : List (AudioSampleFrame F)
  stores : List (Nat × Nat)

/-- One block as the host delivers it: the output buses and the parameter frames. -/
structure Block (F : Type) where
  numOutputs : Nat
  outputs : List (AudioSampleFrame F)
  params : List (AudioParamFrame F)

/-- The two conversions of C between `float` (`F`) and `double` (`D`): the promotion of a
`float` operand and the narrowing of a `double` that is assigned to a `float`. -/
class Precision (F : Type) (D : outParam Type) where
  toDouble : F → D
  toFloat : D → F

export Precision (toDouble toFloat)

/-! ## The code -/

section Code

variable {F D : Type} [Add F] [Mul F] [NatCast F] [OfScientific F]
  [Mul D] [Div D] [NatCast D] [OfScientific D] [Precision F D]

/-- The sample rate, `#define SAMPLE_RATE 48000`. -/
def SAMPLE_RATE : Nat := 48000

/-- The constant `#define PI 3.14159265359`, a `double`. -/
def PI : D := 3.14159265359

/-- A `for (int k = 0; k < n; ++k) body` loop over a state that a body may fail on. -/
def forLoop {σ : Type} (n : Nat) (body : Nat → σ → Option σ) (s : σ) : Option σ :=
  (List.range n).foldlM (fun acc k => body k acc) s

/-- The state a new instance starts from and the node options, lines 89-99.  In
`440 * 2.f * PI / SAMPLE_RATE` the first product is a `float`, the product with `PI` and
the quotient are `double`, and the result is narrowed to the `float` field. -/
def connectAudioWorkletProcessor : WorkletNode F :=
  { state :=
      { phase := 0.0
        phaseIncrement :=
          toFloat (toDouble (((440 : Nat) : F) * 2.0) * PI / ((SAMPLE_RATE : Nat) : D))
        currentVolume := 0.3 }
    numberOfInputs := 0
    numberOfOutputs := 1
    outputChannelCounts := [1] }

/-- Line 125: the increment the target frequency asks for; `targetToneFrequency * 2.f` is a
`float`, the product with `PI` and the quotient are `double`, the result a `float`. -/
def targetPhaseIncrementOf (targetToneFrequency : F) : F :=
  toFloat (toDouble (targetToneFrequency * 2.0) * PI / ((SAMPLE_RATE : Nat) : D))

/-- Lines 126-127: the one-pole smoothing of increment and volume, in `float`. -/
def smoothParameters (state : OscillatorState F) (targetToneFrequency targetVolume : F) :
    OscillatorState F :=
  let targetPhaseIncrement := targetPhaseIncrementOf targetToneFrequency
  { state with
    phaseIncrement := state.phaseIncrement * 0.95 + 0.05 * targetPhaseIncrement
    currentVolume := state.currentVolume * 0.95 + 0.05 * targetVolume }

/-- Line 135: the store `outputs[o].data[idx] = v`, checked against the length of `data`. -/
def storeSample (o idx : Nat) (v : F) (b : BusRun F) : Option (BusRun F) :=
  if idx < b.data.length then
    some { b with data := b.data.set idx v, stores := b.stores ++ [(o, idx)] }
  else
    none

/-- Lines 134-136: the channel loop for sample `i`, writing `s * currentVolume`. -/
def channelLoop (o numberOfChannels samplesPerChannel i : Nat) (s : F) (b : BusRun F) :
    Option (BusRun F) :=
  forLoop numberOfChannels
    (fun ch acc => storeSample o (ch * samplesPerChannel + i) (s * acc.state.currentVolume) acc)
    b

/-- Lines 132-136: the body of the sample loop. -/
def sampleBody (emscripten_math_sin : D → D) (o numberOfChannels samplesPerChannel : Nat)
    (i : Nat) (b : BusRun F) : Option (BusRun F) :=
  let s : F := toFloat (emscripten_math_sin (toDouble b.state.phase))
  let b1 : BusRun F :=
    { b with state := { b.state with phase := b.state.phase + b.state.phaseIncrement } }
  channelLoop o numberOfChannels samplesPerChannel i s b1

/-- Lines 131-137: the body of the bus loop, on bus `outputs[o]`. -/
def busBody (emscripten_math_sin : D → D) (o : Nat) (m : Machine F) : Option (Machine F) :=
  match m.outputs[o]? with
  | none => none
  | some frame =>
    match forLoop frame.samplesPerChannel
        (sampleBody emscripten_math_sin o frame.numberOfChannels frame.samplesPerChannel)
        { state := m.state, data := frame.data, stores := m.stores } with
    | none => none
    | some b =>
      some { state := b.state
             outputs := m.outputs.set o { frame with data := b.data }
             stores := b.stores }

/-- Lines 121-122: the read `params[k].data[0]`. -/
def readParam (params : List (AudioParamFrame F)) (k : Nat) : Option F :=
  match params[k]? with
  | none => none
  | some param => param.data[0]?

/-- The audio callback, lines 115-142.  The result is the returned flag and the registers
after the call: the new state, the filled buses and the log of stores. -/
def ProcessAudio (emscripten_math_sin : D → D) (emscripten_math_fmod : D → D → D)
    (numOutputs : Nat) (outputs : List (AudioSampleFrame F))
    (params : List (AudioParamFrame F)) (userData : OscillatorState F) :
    Option (Bool × Machine F) :=
  match readParam params 0 with
  | none => none
  | some targetToneFrequency =>
    match readParam params 1 with
    | none => none
    | some targetVolume =>
      let state := smoothParameters userData targetToneFrequency targetVolume
      match forLoop numOutputs (busBody emscripten_math_sin)
          { state := state, outputs := outputs, stores := [] } with
      | none => none
      | some m =>
        some (true,
          { m with
            state := { m.state with
                       phase := toFloat (emscripten_math_fmod (toDouble m.state.phase)
                         (toDouble (2.0 : F) * PI)) } })

/-- The host calls `ProcessAudio` once per block, in order, on the same instance state. -/
def processBlocks (emscripten_math_sin : D → D) (emscripten_math_fmod : D → D → D) :
    OscillatorState F → List (Block F) → Option (OscillatorState F)
  | state, [] => some state
  | state, blk :: rest =>
    match ProcessAudio emscripten_math_sin emscripten_math_fmod blk.numOutputs blk.outputs
        blk.params state with
    | none => none
    | some r => processBlocks emscripten_math_sin emscripten_math_fmod r.2.state rest

end Code

/-! ## Vocabulary of the statements -/

section Vocabulary

variable {F : Type}

/-- A bus whose `data` has exactly `numberOfChannels * samplesPerChannel` slots. -/
def AudioSampleFrame.Exact (frame : AudioSampleFrame F) : Prop :=
  frame.data.length = frame.numberOfChannels * frame.samplesPerChannel

/-- The parameter frames of a block that carries frequency `f` and volume `v` first. -/
def paramsOf (f v : F) : List (AudioParamFrame F) :=
  [{ length := 1, data := [f] }, { length := 1, data := [v] }]

/-- A bus of the given shape, filled with the value `x`. -/
def filledFrame (numberOfChannels samplesPerChannel : Nat) (x : F) : AudioSampleFrame F :=
  { numberOfChannels := numberOfChannels
    samplesPerChannel := samplesPerChannel
    data := List.replicate (numberOfChannels * samplesPerChannel) x }

/-- The slot of bus `o` at offset `idx`, when there is one. -/
def slot (outputs : List (AudioSampleFrame F)) (o idx : Nat) : Option F :=
  match outputs[o]? with
  | none => none
  | some frame => frame.data[idx]?

/-- Number of samples the buses before bus `o` hold per channel. -/
def samplesBefore (outputs : List (AudioSampleFrame F)) (o : Nat) : Nat :=
  ((outputs.take o).map AudioSampleFrame.samplesPerChannel).sum

/-- The stores of the sample and channel loops on bus `o`, in program order. -/
def busStores (o : Nat) (frame : AudioSampleFrame F) : List (Nat × Nat) :=
  (List.range frame.samplesPerChannel).flatMap fun i =>
    (List.range frame.numberOfChannels).map fun ch => (o, ch * frame.samplesPerChannel + i)

/-- The stores of the bus loop over the first `n` buses, in program order. -/
def blockStores (outputs : List (AudioSampleFrame F)) (n : Nat) : List (Nat × Nat) :=
  (List.range n).flatMap fun o =>
    match outputs[o]? with
    | none => []
    | some frame => busStores o frame

/-- The phase after `n` executions of `state->phase += state->phaseIncrement` from `p`. -/
def phaseAfter [Add F] (p d : F) : Nat → F
  | 0 => p
  | n + 1 => phaseAfter p d n + d

/-- The block carries target frequency `f` and target volume `v`. -/
def Block.Carries (blk : Block F) (f v : F) : Prop :=
  readParam blk.params 0 = some f ∧ readParam blk.params 1 = some v

/-- A block whose buses are the `numOutputs` entries of `outputs`, each exactly sized. -/
def Block.WellFormed (blk : Block F) : Prop :=
  blk.numOutputs = blk.outputs.length ∧ ∀ frame ∈ blk.outputs, frame.Exact

/-- The block of the scenario: one bus of `numberOfChannels` by `samplesPerChannel` slots
that hold `x`, targets `f` and `v`. -/
def scenarioBlock (numberOfChannels samplesPerChannel : Nat) (x f v : F) : Block F :=
  { numOutputs := 1
    outputs := [filledFrame numberOfChannels samplesPerChannel x]
    params := paramsOf f v }

instance AudioSampleFrame.decidableExact (frame : AudioSampleFrame F) : Decidable frame.Exact :=
  inferInstanceAs (Decidable (frame.data.length = _))

instance Block.decidableWellFormed (blk : Block F) : Decidable blk.WellFormed :=
  inferInstanceAs (Decidable (_ ∧ ∀ frame ∈ blk.outputs, frame.Exact))

end Vocabulary

/-! ## Exact arithmetic -/

section ExactArithmetic

variable {F : Type} [LinearOrderedField F] [FloorRing F]

/-- In exact arithmetic `float` and `double` are one type and nothing is rounded. -/
instance exactPrecision {G : Type} [LinearOrderedField G] : Precision G G where
  toDouble := id
  toFloat := id

/-- Integer part of `x`, rounded toward zero. -/
def truncToInt (x : F) : Int :=
  if 0 ≤ x then ⌊x⌋ else ⌈x⌉

/-- The C `fmod`: `x - n * y` with `n` the quotient `x / y` truncated toward zero. -/
def fmod (x y : F) : F :=
  x - (truncToInt (x / y) : F) * y

/-- A block whose targets the host clamped: frequency in [20, 20000], volume in [0, 1]. -/
def Block.Clamped (blk : Block F) : Prop :=
  ∃ f v, blk.Carries f v ∧ 20 ≤ f ∧ f ≤ 20000 ∧ 0 ≤ v ∧ v ≤ 1

/-- The ranges the data model gives for the smoothed fields. -/
def OscillatorState.InRange (state : OscillatorState F) : Prop :=
  0 < state.phaseIncrement ∧ 0 ≤ state.currentVolume ∧ state.currentVolume ≤ 1

instance Block.decidableCarries (blk : Block F) (f v : F) : Decidable (blk.Carries f v) :=
  inferInstanceAs (Decidable (_ ∧ _))

instance Block.decidableClamped (blk : Block F) : Decidable blk.Clamped :=
  match h0 : readParam blk.params 0, h1 : readParam blk.params 1 with
  | some f, some v =>
    decidable_of_iff (20 ≤ f ∧ f ≤ 20000 ∧ 0 ≤ v ∧ v ≤ 1)
      ⟨fun h => ⟨f, v, ⟨h0, h1⟩, h⟩,
        fun ⟨_, _, ⟨e0, e1⟩, h⟩ => by
          cases h0.symm.trans e0
          cases h1.symm.trans e1
          exact h⟩
  | none, _ => isFalse (fun ⟨_, _, ⟨e0, _⟩, _⟩ => Option.noConfusion (h0.symm.trans e0))
  | some _, none =>
    isFalse (fun ⟨_, _, ⟨_, e1⟩, _⟩ => Option.noConfusion (h1.symm.trans e1))

instance OscillatorState.decidableInRange (state : OscillatorState F) :
    Decidable state.InRange :=
  inferInstanceAs (Decidable (_ ∧ _ ∧ _))

end ExactArithmetic

/-! ## Binary floating point -/

section Binary

/-- Position of the leading bit of `n`: `2 ^ k ≤ n < 2 ^ (k + 1)` for `0 < n`, with `fuel`
at least `n`. -/
def leadingBit : Nat → Nat → Nat
  | 0, _ => 0
  | fuel + 1, n => if n < 2 then 0 else leadingBit fuel (n / 2) + 1

/-- Round `± (num / den) * 2 ^ scale` to the nearest value with `p` significant bits, ties
to even.  The result is the pair `(m, e)` of the value `m * 2 ^ e`, with
`2 ^ (p - 1) ≤ |m| < 2 ^ p` when the value is at least `2 ^ emin` in magnitude and
`e = emin - (p - 1)` below that (the subnormal values); zero is `(0, 0)`.  There is no
largest value: overflow is outside the model. -/
def roundNearestEven (p : Nat) (emin : Int) (neg : Bool) (num den : Nat) (scale : Int) :
    Int × Int :=
  if num = 0 ∨ den = 0 then (0, 0) else
    let e0 : Int := (leadingBit num num : Int) - (leadingBit den den : Int)
    let e1 : Int := if den * 2 ^ e0.toNat ≤ num * 2 ^ (-e0).toNat then e0 else e0 - 1
    let e2 : Int := if emin ≤ e1 + scale then e1 + scale else emin
    let s : Int := e2 - ((p : Int) - 1)
    let t : Int := s - scale
    let n : Nat := num * 2 ^ (-t).toNat
    let d : Nat := den * 2 ^ t.toNat
    let k : Nat := n / d
    let r : Nat := n % d
    let k1 : Nat :=
      if 2 * r < d then k else if d < 2 * r then k + 1 else if k % 2 = 0 then k else k + 1
    if k1 = 2 ^ p then ((if neg then -1 else 1) * 2 ^ (p - 1), s + 1)
    else ((if neg then -1 else 1) * (k1 : Int), s)

/-- The finite values of IEEE binary32, `m * 2 ^ e` in the form `roundNearestEven` gives. -/
structure Binary32 where
  m : Int
  e : Int
deriving DecidableEq

/-- The finite values of IEEE binary64. -/
structure Binary64 where
  m : Int
  e : Int
deriving DecidableEq

/-- The binary32 value nearest to `± (num / den) * 2 ^ scale`. -/
def Binary32.round (neg : Bool) (num den : Nat) (scale : Int) : Binary32 :=
  let r := roundNearestEven 24 (-126) neg num den scale
  { m := r.1, e := r.2 }

/-- The binary64 value nearest to `± (num / den) * 2 ^ scale`. -/
def Binary64.round (neg : Bool) (num den : Nat) (scale : Int) : Binary64 :=
  let r := roundNearestEven 53 (-1022) neg num den scale
  { m := r.1, e := r.2 }

/-- The `float` product: the exact product, rounded. -/
instance Binary32.instMul : Mul Binary32 where
  mul x y := Binary32.round (decide (x.m * y.m < 0)) (x.m * y.m).natAbs 1 (x.e + y.e)

/-- The `float` sum: the exact sum, rounded. -/
instance Binary32.instAdd : Add Binary32 where
  add x y :=
    let s : Int := if x.e ≤ y.e then x.e else y.e
    let z : Int := x.m * 2 ^ (x.e - s).toNat + y.m * 2 ^ (y.e - s).toNat
    Binary32.round (decide (z < 0)) z.natAbs 1 s

/-- The conversion of an `int` to `float`. -/
instance Binary32.instNatCast : NatCast Binary32 where
  natCast n := Binary32.round false n 1 0

/-- A decimal literal with the suffix `f`: the nearest binary32 value. -/
instance Binary32.instOfScientific : OfScientific Binary32 where
  ofScientific mantissa exponentSign decimalExponent :=
    if exponentSign then Binary32.round false mantissa (10 ^ decimalExponent) 0
    else Binary32.round false (mantissa * 10 ^ decimalExponent) 1 0

/-- The `double` product: the exact product, rounded. -/
instance Binary64.instMul : Mul Binary64 where
  mul x y := Binary64.round (decide (x.m * y.m < 0)) (x.m * y.m).natAbs 1 (x.e + y.e)

/-- The `double` quotient: the exact quotient, rounded; a quotient by zero, which the code
does not form, is zero here. -/
instance Binary64.instDiv : Div Binary64 where
  div x y := Binary64.round (decide (x.m * y.m < 0)) x.m.natAbs y.m.natAbs (x.e - y.e)

/-- The conversion of an `int` to `double`. -/
instance Binary64.instNatCast : NatCast Binary64 where
  natCast n := Binary64.round false n 1 0

/-- A decimal literal without suffix: the nearest binary64 value. -/
instance Binary64.instOfScientific : OfScientific Binary64 where
  ofScientific mantissa exponentSign decimalExponent :=
    if exponentSign then Binary64.round false mantissa (10 ^ decimalExponent) 0
    else Binary64.round false (mantissa * 10 ^ decimalExponent) 1 0

/-- Promotion of a `float` is exact; narrowing of a `double` rounds. -/
instance binaryPrecision : Precision Binary32 Binary64 where
  toDouble x := Binary64.round (decide (x.m < 0)) x.m.natAbs 1 x.e
  toFloat y := Binary32.round (decide (y.m < 0)) y.m.natAbs 1 y.e

end Binary

/-! ## The binary formats on the constants of the code -/

section BinaryChecks

/-- The literals of lines 126 and 127 and of the constructor, as binary32 values:
`0.95f = 0x1.e66666p-1`, `0.05f = 0x1.99999ap-5`, `0.3f = 0x1.333334p-2`. -/
theorem binary32_literals :
    (0.95 : Binary32) = { m := 15938355, e := -24 } ∧
    (0.05 : Binary32) = { m := 13421773, e := -28 } ∧
    (0.3 : Binary32) = { m := 10066330, e := -25 } ∧
    (2.0 : Binary32) = { m := 8388608, e := -22 } ∧
    (0.0 : Binary32) = { m := 0, e := 0 } := by
  decide

/-- The constant `PI` as a binary64 value, `0x1.921fb54442eeap+1`. -/
theorem binary64_PI : (PI : Binary64) = { m := 7074237752028906, e := -51 } := by
  decide

set_option maxRecDepth 100000 in
/-- The increment of a fresh instance in binary32, `0x1.d7d348p-5`, and the volume; a call
with the targets 440 Hz and 0.3 leaves both as they are. -/
theorem binary32_fresh :
    (connectAudioWorkletProcessor : WorkletNode Binary32).state.phaseIncrement =
      { m := 15460772, e := -28 } ∧
    (connectAudioWorkletProcessor : WorkletNode Binary32).state.currentVolume =
      { m := 10066330, e := -25 } ∧
    (smoothParameters (connectAudioWorkletProcessor : WorkletNode Binary32).state
      440.0 0.3).phaseIncrement = { m := 15460772, e := -28 } ∧
    (smoothParameters (connectAudioWorkletProcessor : WorkletNode Binary32).state
      440.0 0.3).currentVolume = { m := 10066330, e := -25 } := by
  decide

end BinaryChecks

/-! ## Offsets and the log of stores -/

section Stores

variable {F : Type}

/-- Offsets `ch * S + i` with `i < S` determine the sample index. -/
theorem offset_sample_eq {S i j ch ch2 : Nat} (hi : i < S) (hj : j < S)
    (h : ch * S + i = ch2 * S + j) : i = j := by
  have h1 : (ch * S + i) % S = (ch2 * S + j) % S := by rw [h]
  rw [Nat.mul_add_mod_of_lt hi, Nat.mul_add_mod_of_lt hj] at h1
  exact h1

theorem offset_lt {C S ch i : Nat} (hch : ch < C) (hi : i < S) : ch * S + i < C * S := by
  calc ch * S + i < ch * S + S := by omega
    _ = (ch + 1) * S := by ring
    _ ≤ C * S := Nat.mul_le_mul_right S hch

theorem offset_split {C S k : Nat} (h : k < C * S) :
    ∃ i < S, ∃ ch < C, k = ch * S + i := by
  have hS : 0 < S := by
    rcases Nat.eq_zero_or_pos S with h0 | h0
    · subst h0; simp at h
    · exact h0
  refine ⟨k % S, Nat.mod_lt k hS, k / S, ?_, (Nat.div_add_mod' k S).symm⟩
  exact (Nat.div_lt_iff_lt_mul hS).mpr h

theorem count_one_of_nodup (a : Nat × Nat) (l : List (Nat × Nat)) (hn : l.Nodup) (ha : a ∈ l) :
    List.count a l = 1 := by
  induction l with
  | nil => simp at ha
  | cons b l ih =>
    rw [List.nodup_cons] at hn
    rw [List.count_cons]
    by_cases e : b = a
    · subst e
      simp [List.count_eq_zero_of_not_mem hn.1]
    · have hmem : a ∈ l := by
        rcases List.mem_cons.mp ha with h | h
        · exact absurd h.symm e
        · exact h
      simp [ih hn.2 hmem, e]

theorem samplesBefore_zero (outputs : List (AudioSampleFrame F)) :
    samplesBefore outputs 0 = 0 := by
  simp [samplesBefore]

theorem samplesBefore_succ (outputs : List (AudioSampleFrame F)) (o : Nat)
    (frame : AudioSampleFrame F) (h : outputs[o]? = some frame) :
    samplesBefore outputs (o + 1) = samplesBefore outputs o + frame.samplesPerChannel := by
  simp [samplesBefore, List.take_succ, h]

theorem blockStores_succ (outputs : List (AudioSampleFrame F)) (o : Nat)
    (frame : AudioSampleFrame F) (h : outputs[o]? = some frame) :
    blockStores outputs (o + 1) = blockStores outputs o ++ busStores o frame := by
  simp [blockStores, List.range_succ, List.flatMap_append, h]

theorem mem_busStores (o : Nat) (frame : AudioSampleFrame F) (p : Nat × Nat) :
    p ∈ busStores o frame ↔
      p.1 = o ∧ p.2 < frame.numberOfChannels * frame.samplesPerChannel := by
  obtain ⟨a, k⟩ := p
  simp only [busStores, List.mem_flatMap, List.mem_map, List.mem_range, Prod.mk.injEq]
  constructor
  · rintro ⟨i, hi, ch, hch, rfl, rfl⟩
    exact ⟨rfl, offset_lt hch hi⟩
  · rintro ⟨rfl, hk⟩
    obtain ⟨i, hi, ch, hch, e⟩ := offset_split hk
    exact ⟨i, hi, ch, hch, rfl, e.symm⟩

theorem nodup_busStores (o : Nat) (frame : AudioSampleFrame F) :
    (busStores o frame).Nodup := by
  unfold busStores
  rw [List.nodup_flatMap]
  constructor
  · intro i hi
    have hi2 : i < frame.samplesPerChannel := List.mem_range.mp hi
    refine List.Nodup.map_on ?_ (List.nodup_range _)
    intro a _ b _ hab
    simp only [Prod.mk.injEq, true_and] at hab
    have hS : 0 < frame.samplesPerChannel := by omega
    have h2 : a * frame.samplesPerChannel = b * frame.samplesPerChannel := by omega
    exact Nat.eq_of_mul_eq_mul_right hS h2
  · refine List.Pairwise.imp_of_mem ?_ (List.nodup_range _)
    intro i j hi hj hij
    have hi2 : i < frame.samplesPerChannel := List.mem_range.mp hi
    have hj2 : j < frame.samplesPerChannel := List.mem_range.mp hj
    simp only [Function.onFun]
    intro p hp1 hp2
    simp only [List.mem_map, List.mem_range] at hp1 hp2
    obtain ⟨a, _, rfl⟩ := hp1
    obtain ⟨b, _, hb⟩ := hp2
    simp only [Prod.mk.injEq, true_and] at hb
    exact hij (offset_sample_eq hi2 hj2 hb.symm)

theorem mem_blockStores (outputs : List (AudioSampleFrame F)) (n : Nat) (p : Nat × Nat) :
    p ∈ blockStores outputs n ↔
      p.1 < n ∧ ∃ frame, outputs[p.1]? = some frame ∧
        p.2 < frame.numberOfChannels * frame.samplesPerChannel := by
  simp only [blockStores, List.mem_flatMap, List.mem_range]
  constructor
  · rintro ⟨o, ho, hp⟩
    cases hfr : outputs[o]? with
    | none => simp [hfr] at hp
    | some frame =>
      simp only [hfr] at hp
      obtain ⟨h1, h2⟩ := (mem_busStores o frame p).mp hp
      subst h1
      exact ⟨ho, frame, hfr, h2⟩
  · rintro ⟨ho, frame, hfr, hk⟩
    refine ⟨p.1, ho, ?_⟩
    simp only [hfr]
    exact (mem_busStores p.1 frame p).mpr ⟨rfl, hk⟩

theorem nodup_blockStores (outputs : List (AudioSampleFrame F)) (n : Nat) :
    (blockStores outputs n).Nodup := by
  unfold blockStores
  rw [List.nodup_flatMap]
  constructor
  · intro o _
    cases hfr : outputs[o]? with
    | none => simp
    | some frame => exact nodup_busStores o frame
  · refine List.Pairwise.imp_of_mem ?_ (List.nodup_range _)
    intro a b _ _ hab
    simp only [Function.onFun]
    intro p hp1 hp2
    cases hfa : outputs[a]? with
    | none => simp [hfa] at hp1
    | some fa =>
      cases hfb : outputs[b]? with
      | none => simp [hfb] at hp2
      | some fb =>
        simp only [hfa] at hp1
        simp only [hfb] at hp2
        have e1 := ((mem_busStores a fa p).mp hp1).1
        have e2 := ((mem_busStores b fb p).mp hp2).1
        exact hab (e1.symm.trans e2)

theorem samplesBefore_uniform (outputs : List (AudioSampleFrame F)) (S : Nat)
    (h : ∀ fr ∈ outputs, fr.samplesPerChannel = S) (o : Nat) (ho : o ≤ outputs.length) :
    samplesBefore outputs o = o * S := by
  induction o with
  | zero => simp [samplesBefore]
  | succ o ih =>
    have hlt : o < outputs.length := ho
    have hfr : outputs[o]? = some outputs[o] := List.getElem?_eq_getElem hlt
    rw [samplesBefore_succ outputs o _ hfr, ih (Nat.le_of_succ_le ho),
      h _ (List.getElem_mem hlt)]
    ring

theorem exact_fits (outputs : List (AudioSampleFrame F)) (h : ∀ fr ∈ outputs, fr.Exact) :
    ∀ fr ∈ outputs, fr.numberOfChannels * fr.samplesPerChannel ≤ fr.data.length :=
  fun fr hfr => le_of_eq (h fr hfr).symm

theorem slot_eq (outputs : List (AudioSampleFrame F)) (o idx : Nat) (frame : AudioSampleFrame F)
    (h : outputs[o]? = some frame) : slot outputs o idx = frame.data[idx]? := by
  simp [slot, h]

theorem phaseAfter_add [Add F] (p d : F) (a b : Nat) :
    phaseAfter p d (a + b) = phaseAfter (phaseAfter p d a) d b := by
  induction b with
  | zero => rfl
  | succ b ih =>
    show phaseAfter p d (a + b) + d = phaseAfter (phaseAfter p d a) d b + d
    rw [ih]

theorem filledFrame_exact (numberOfChannels samplesPerChannel : Nat) (x : F) :
    (filledFrame numberOfChannels samplesPerChannel x).Exact := by
  unfold AudioSampleFrame.Exact filledFrame
  exact List.length_replicate _ _

theorem scenarioBlock_wellFormed (numberOfChannels samplesPerChannel : Nat) (x f v : F) :
    (scenarioBlock numberOfChannels samplesPerChannel x f v).WellFormed := by
  refine ⟨rfl, ?_⟩
  intro frame hframe
  have e : frame = filledFrame numberOfChannels samplesPerChannel x := by
    simpa [scenarioBlock] using hframe
  rw [e]
  exact filledFrame_exact _ _ _

end Stores

/-! ## The loops of `ProcessAudio`, for any arithmetic -/

section Loops

variable {F : Type}

theorem forLoop_zero {σ : Type} (body : Nat → σ → Option σ) (s : σ) :
    forLoop 0 body s = some s := by
  simp [forLoop]

theorem forLoop_succ {σ : Type} (n : Nat) (body : Nat → σ → Option σ) (s : σ) :
    forLoop (n + 1) body s = (forLoop n body s).bind (body n) := by
  simp only [forLoop, List.range_succ, List.foldlM_append]
  cases h : List.foldlM (fun acc k => body k acc) s (List.range n) <;> simp

variable [Mul F]

/-- The channel loop for sample `i` stores `s * currentVolume` at `ch * S + i` for every
`ch`, in order, and nothing else. -/
theorem channelLoop_spec (o S i : Nat) (s : F) (c : Nat) (b : BusRun F)
    (h : ∀ ch < c, ch * S + i < b.data.length) :
    ∃ b2, channelLoop o c S i s b = some b2 ∧ b2.state = b.state ∧
      b2.stores = b.stores ++ (List.range c).map (fun ch => (o, ch * S + i)) ∧
      b2.data.length = b.data.length ∧
      (∀ ch < c, b2.data[ch * S + i]? = some (s * b.state.currentVolume)) ∧
      (∀ k, (∀ ch < c, k ≠ ch * S + i) → b2.data[k]? = b.data[k]?) := by
  induction c with
  | zero =>
    refine ⟨b, ?_, rfl, by simp, rfl, ?_, ?_⟩
    · simp [channelLoop, forLoop_zero]
    · intro ch hch; omega
    · intro k _; rfl
  | succ c ih =>
    obtain ⟨b1, hrun, hst, hsto, hlen, hval, hother⟩ :=
      ih (fun ch hch => h ch (Nat.lt_succ_of_lt hch))
    have hin : c * S + i < b1.data.length := by rw [hlen]; exact h c (Nat.lt_succ_self c)
    refine ⟨{ b1 with data := b1.data.set (c * S + i) (s * b1.state.currentVolume),
                      stores := b1.stores ++ [(o, c * S + i)] }, ?_, ?_, ?_, ?_, ?_, ?_⟩
    · unfold channelLoop at hrun ⊢
      rw [forLoop_succ, hrun]
      simp [storeSample, hin]
    · exact hst
    · simp [hsto, List.range_succ]
    · simp [hlen]
    · intro ch hch
      simp only [List.getElem?_set]
      by_cases e : c * S + i = ch * S + i
      · simp [e, hst]
        rw [← e]; exact hin
      · have hlt : ch < c := by
          rcases Nat.lt_succ_iff_lt_or_eq.mp hch with h1 | h1
          · exact h1
          · exact absurd (by rw [h1]) e
        simp [e, hval ch hlt]
    · intro k hk
      simp only [List.getElem?_set]
      have e : c * S + i ≠ k := fun e => hk c (Nat.lt_succ_self c) e.symm
      simp [e]
      exact hother k (fun ch hch => hk ch (Nat.lt_succ_of_lt hch))

variable {D : Type} [Add F] [Precision F D]

/-- The first `n` rounds of the sample loop: round `i` stores the sine of the phase after `i`
increments, times the volume, in every channel. -/
theorem sampleLoop_spec (sin : D → D) (o C S : Nat) (n : Nat) (hn : n ≤ S) (b : BusRun F)
    (h : C * S ≤ b.data.length) :
    ∃ b2, forLoop n (sampleBody sin o C S) b = some b2 ∧
      b2.state = { b.state with
        phase := phaseAfter b.state.phase b.state.phaseIncrement n } ∧
      b2.stores = b.stores ++
        (List.range n).flatMap (fun i => (List.range C).map (fun ch => (o, ch * S + i))) ∧
      b2.data.length = b.data.length ∧
      (∀ i < n, ∀ ch < C, b2.data[ch * S + i]? =
        some (toFloat (sin (toDouble (phaseAfter b.state.phase b.state.phaseIncrement i))) *
          b.state.currentVolume)) ∧
      (∀ k, (∀ i < n, ∀ ch < C, k ≠ ch * S + i) → b2.data[k]? = b.data[k]?) := by
  induction n with
  | zero =>
    refine ⟨b, forLoop_zero _ _, rfl, by simp, rfl, ?_, ?_⟩
    · intro i hi; omega
    · intro k _; rfl
  | succ n ih =>
    obtain ⟨b1, hrun, hst, hsto, hlen, hval, hother⟩ := ih (Nat.le_of_succ_le hn)
    have hnS : n < S := hn
    obtain ⟨b2, hrun2, hst2, hsto2, hlen2, hval2, hother2⟩ :=
      channelLoop_spec o S n (toFloat (sin (toDouble b1.state.phase))) C
        { b1 with state := { b1.state with phase := b1.state.phase + b1.state.phaseIncrement } }
        (fun ch hch => by
          have := offset_lt hch hnS
          simp only [hlen]; omega)
    refine ⟨b2, ?_, ?_, ?_, ?_, ?_, ?_⟩
    · rw [forLoop_succ, hrun]
      simpa [sampleBody] using hrun2
    · rw [hst2, hst]
      rfl
    · rw [hsto2]
      simp [hsto, List.range_succ, List.flatMap_append]
    · rw [hlen2]; exact hlen
    · intro i hi ch hch
      rcases Nat.lt_succ_iff_lt_or_eq.mp hi with h1 | h1
      · rw [hother2 _ (fun ch2 _ e => by
          have := offset_sample_eq (Nat.lt_trans h1 hnS) hnS e
          omega)]
        exact hval i h1 ch hch
      · subst h1
        rw [hval2 ch hch, hst]
    · intro k hk
      rw [hother2 k (fun ch hch => hk n (Nat.lt_succ_self n) ch hch)]
      exact hother k (fun i hi ch hch => hk i (Nat.lt_succ_of_lt hi) ch hch)

/-- The first `N` rounds of the bus loop: bus `o` receives the samples that follow those of
the buses before it. -/
theorem busLoop_spec (sin : D → D) (m : Machine F) (N : Nat) (hN : N ≤ m.outputs.length)
    (hfit : ∀ fr ∈ m.outputs, fr.numberOfChannels * fr.samplesPerChannel ≤ fr.data.length) :
    ∃ m2, forLoop N (busBody sin) m = some m2 ∧
      m2.state = { m.state with
        phase := phaseAfter m.state.phase m.state.phaseIncrement
          (samplesBefore m.outputs N) } ∧
      m2.stores = m.stores ++ blockStores m.outputs N ∧
      m2.outputs.length = m.outputs.length ∧
      (∀ o, N ≤ o → m2.outputs[o]? = m.outputs[o]?) ∧
      (∀ o < N, ∀ fr, m.outputs[o]? = some fr →
        ∃ fr2, m2.outputs[o]? = some fr2 ∧
          fr2.numberOfChannels = fr.numberOfChannels ∧
          fr2.samplesPerChannel = fr.samplesPerChannel ∧
          fr2.data.length = fr.data.length ∧
          (∀ i < fr.samplesPerChannel, ∀ ch < fr.numberOfChannels,
            fr2.data[ch * fr.samplesPerChannel + i]? =
              some (toFloat (sin (toDouble (phaseAfter m.state.phase m.state.phaseIncrement
                (samplesBefore m.outputs o + i)))) * m.state.currentVolume)) ∧
          (∀ k, fr.numberOfChannels * fr.samplesPerChannel ≤ k →
            fr2.data[k]? = fr.data[k]?)) := by
  induction N with
  | zero =>
    refine ⟨m, forLoop_zero _ _, by rw [samplesBefore_zero]; rfl, by simp [blockStores], rfl,
      fun _ _ => rfl, ?_⟩
    intro o ho; omega
  | succ N ih =>
    obtain ⟨m1, hrun, hst, hsto, hlen, hrest, hdone⟩ := ih (Nat.le_of_succ_le hN)
    have hNlt : N < m.outputs.length := hN
    obtain ⟨fr, hfr⟩ : ∃ fr, m.outputs[N]? = some fr :=
      ⟨m.outputs[N], List.getElem?_eq_getElem hNlt⟩
    have hfr1 : m1.outputs[N]? = some fr := by rw [hrest N (Nat.le_refl N)]; exact hfr
    have hmem : fr ∈ m.outputs := List.mem_iff_getElem?.mpr ⟨N, hfr⟩
    obtain ⟨b2, hrun2, hst2, hsto2, hlen2, hval2, hother2⟩ :=
      sampleLoop_spec sin N fr.numberOfChannels fr.samplesPerChannel fr.samplesPerChannel
        (Nat.le_refl _) { state := m1.state, data := fr.data, stores := m1.stores }
        (hfit fr hmem)
    refine ⟨{ state := b2.state, outputs := m1.outputs.set N { fr with data := b2.data },
              stores := b2.stores }, ?_, ?_, ?_, ?_, ?_, ?_⟩
    · rw [forLoop_succ, hrun]
      simp [busBody, hfr1, hrun2]
    · simp only [hst2, hst, samplesBefore_succ m.outputs N fr hfr, phaseAfter_add]
    · simp only [hsto2, hsto, blockStores_succ m.outputs N fr hfr, busStores]
      simp
    · simp [hlen]
    · intro o ho
      simp only
      rw [List.getElem?_set_ne (by omega)]
      exact hrest o (by omega)
    · intro o ho fr0 hfr0
      rcases Nat.lt_succ_iff_lt_or_eq.mp ho with h1 | h1
      · obtain ⟨fr2, h2, hrest2⟩ := hdone o h1 fr0 hfr0
        refine ⟨fr2, ?_, hrest2⟩
        simp only
        rw [List.getElem?_set_ne (by omega)]
        exact h2
      · subst h1
        have e : fr0 = fr := by
          rw [hfr] at hfr0; exact (Option.some.inj hfr0).symm
        subst e
        refine ⟨{ fr0 with data := b2.data }, ?_, rfl, rfl, hlen2, ?_, ?_⟩
        · simp only
          rw [List.getElem?_set_self (by rw [hlen]; exact hNlt)]
        · intro i hi ch hch
          simp only
          rw [hval2 i hi ch hch]
          simp only [hst, phaseAfter_add]
        · intro k hk
          simp only
          exact hother2 k (fun i hi ch hch e => by
            have := offset_lt hch hi
            omega)

end Loops

/-! ## The callback, for any arithmetic -/

section Callback

variable {F D : Type} [Add F] [Mul F] [OfScientific F]
  [Mul D] [Div D] [NatCast D] [OfScientific D] [Precision F D]

/-- The callback on buses that are large enough: it returns, and its state, stores and
buffers are as follows. -/
theorem ProcessAudio_spec (sin : D → D) (fm : D → D → D) (numOutputs : Nat)
    (outputs : List (AudioSampleFrame F)) (params : List (AudioParamFrame F))
    (st : OscillatorState F) (f v : F)
    (hf : readParam params 0 = some f) (hv : readParam params 1 = some v)
    (hN : numOutputs ≤ outputs.length)
    (hfit : ∀ fr ∈ outputs, fr.numberOfChannels * fr.samplesPerChannel ≤ fr.data.length) :
    ∃ m, ProcessAudio sin fm numOutputs outputs params st = some (true, m) ∧
      m.state =
        { phase := toFloat (fm
            (toDouble (phaseAfter st.phase (smoothParameters st f v).phaseIncrement
              (samplesBefore outputs numOutputs))) (toDouble (2.0 : F) * PI))
          phaseIncrement := (smoothParameters st f v).phaseIncrement
          currentVolume := (smoothParameters st f v).currentVolume } ∧
      m.stores = blockStores outputs numOutputs ∧
      m.outputs.length = outputs.length ∧
      (∀ o, numOutputs ≤ o → m.outputs[o]? = outputs[o]?) ∧
      (∀ o < numOutputs, ∀ fr, outputs[o]? = some fr →
        ∃ fr2, m.outputs[o]? = some fr2 ∧
          fr2.numberOfChannels = fr.numberOfChannels ∧
          fr2.samplesPerChannel = fr.samplesPerChannel ∧
          fr2.data.length = fr.data.length ∧
          (∀ i < fr.samplesPerChannel, ∀ ch < fr.numberOfChannels,
            fr2.data[ch * fr.samplesPerChannel + i]? =
              some (toFloat (sin (toDouble (phaseAfter st.phase
                  (smoothParameters st f v).phaseIncrement (samplesBefore outputs o + i)))) *
                (smoothParameters st f v).currentVolume)) ∧
          (∀ k, fr.numberOfChannels * fr.samplesPerChannel ≤ k →
            fr2.data[k]? = fr.data[k]?)) := by
  obtain ⟨m1, hrun, hst, hsto, hlen, hrest, hdone⟩ :=
    busLoop_spec sin
      { state := smoothParameters st f v, outputs := outputs, stores := [] } numOutputs hN hfit
  refine ⟨{ m1 with state := { m1.state with
              phase := toFloat (fm (toDouble m1.state.phase) (toDouble (2.0 : F) * PI)) } }, ?_, ?_, ?_, hlen,
    hrest, ?_⟩
  · simp [ProcessAudio, hf, hv, hrun]
  · simp [hst, smoothParameters]
  · simpa using hsto
  · intro o ho fr hfr
    obtain ⟨fr2, h2, hC, hS, hL, hval, hother⟩ := hdone o ho fr hfr
    exact ⟨fr2, h2, hC, hS, hL, fun i hi ch hch => by
      rw [hval i hi ch hch]; simp [smoothParameters], hother⟩

/-- A call on buses that all hold `S` samples per channel: bus `o` continues the waveform at
sample `o * S`, and the phase advances by the samples of all the buses. -/
theorem ProcessAudio_uniform_any (sin : D → D) (fm : D → D → D)
    (outputs : List (AudioSampleFrame F)) (S : Nat) (params : List (AudioParamFrame F))
    (st : OscillatorState F) (f v : F)
    (hf : readParam params 0 = some f) (hv : readParam params 1 = some v)
    (hS : ∀ fr ∈ outputs, fr.samplesPerChannel = S) (hexact : ∀ fr ∈ outputs, fr.Exact) :
    ∃ m, ProcessAudio sin fm outputs.length outputs params st = some (true, m) ∧
      m.state =
        { phase := toFloat (fm
            (toDouble (phaseAfter st.phase (smoothParameters st f v).phaseIncrement
              (outputs.length * S))) (toDouble (2.0 : F) * PI))
          phaseIncrement := (smoothParameters st f v).phaseIncrement
          currentVolume := (smoothParameters st f v).currentVolume } ∧
      m.stores = blockStores outputs outputs.length ∧
      (∀ o fr, outputs[o]? = some fr → ∀ ch < fr.numberOfChannels, ∀ i < S,
        slot m.outputs o (ch * S + i) =
          some (toFloat (sin (toDouble (phaseAfter st.phase
              (smoothParameters st f v).phaseIncrement (o * S + i)))) *
            (smoothParameters st f v).currentVolume)) := by
  obtain ⟨m, hm, hst, hsto, _, _, hdone⟩ :=
    ProcessAudio_spec sin fm outputs.length outputs params st f v hf hv (Nat.le_refl _)
      (exact_fits outputs hexact)
  refine ⟨m, hm, ?_, hsto, ?_⟩
  · rw [hst, samplesBefore_uniform outputs S hS _ (Nat.le_refl _)]
  · intro o fr hfr ch hch i hi
    have ho : o < outputs.length := (List.getElem?_eq_some_iff.mp hfr).1
    have hSfr : fr.samplesPerChannel = S := hS fr (List.mem_iff_getElem?.mpr ⟨o, hfr⟩)
    obtain ⟨fr2, h2, _, _, _, hval, _⟩ := hdone o ho fr hfr
    rw [slot_eq m.outputs o _ fr2 h2]
    have := hval i (by rw [hSfr]; exact hi) ch hch
    rw [hSfr, samplesBefore_uniform outputs S hS o ho.le] at this
    exact this

end Callback

/-! ## Exact arithmetic: the wrap and the accumulated phase -/

section ExactLemmas

variable {F : Type} [LinearOrderedField F]

theorem phaseAfter_eq (p d : F) (n : Nat) : phaseAfter p d n = p + (n : F) * d := by
  induction n with
  | zero => simp [phaseAfter]
  | succ n ih =>
    show phaseAfter p d n + d = p + ((n + 1 : Nat) : F) * d
    rw [ih]; push_cast; ring

theorem toFloat_exact (x : F) : (toFloat x : F) = x := rfl

theorem toDouble_exact (x : F) : (toDouble x : F) = x := rfl

theorem two_PI_eq : (toDouble (2.0 : F) * PI : F) = 2 * PI := by
  rw [toDouble_exact]
  norm_num

theorem PI_pos : (0 : F) < PI := by
  unfold PI; norm_num

theorem fmod_nonneg [FloorRing F] (x y : F) (hx : 0 ≤ x) (hy : 0 < y) :
    0 ≤ fmod x y := by
  have hq : 0 ≤ x / y := div_nonneg hx hy.le
  have h1 : ((⌊x / y⌋ : Int) : F) ≤ x / y := Int.floor_le _
  have h2 : ((⌊x / y⌋ : Int) : F) * y ≤ x := (le_div_iff₀ hy).mp h1
  simp only [fmod, truncToInt, hq, if_true]
  linarith

theorem fmod_lt [FloorRing F] (x y : F) (hx : 0 ≤ x) (hy : 0 < y) :
    fmod x y < y := by
  have hq : 0 ≤ x / y := div_nonneg hx hy.le
  have h1 : x / y < ((⌊x / y⌋ : Int) : F) + 1 := Int.lt_floor_add_one _
  have h2 : x < (((⌊x / y⌋ : Int) : F) + 1) * y := (div_lt_iff₀ hy).mp h1
  simp only [fmod, truncToInt, hq, if_true]
  linarith

end ExactLemmas

/-! ## One call and sequences of calls -/

section Calls

variable {F : Type} [LinearOrderedField F]

theorem smoothParameters_phaseIncrement (st : OscillatorState F) (f v : F) :
    (smoothParameters st f v).phaseIncrement =
      st.phaseIncrement * 0.95 + 0.05 * (f * 2 * PI / 48000) := by
  show st.phaseIncrement * 0.95 +
    0.05 * toFloat (toDouble (f * 2.0) * PI / ((48000 : Nat) : F)) = _
  rw [toFloat_exact, toDouble_exact]
  norm_num

theorem fresh_phase : (connectAudioWorkletProcessor : WorkletNode F).state.phase = 0 := by
  show (0.0 : F) = 0
  norm_num

theorem fresh_phaseIncrement :
    (connectAudioWorkletProcessor : WorkletNode F).state.phaseIncrement =
      440 * 2 * PI / 48000 := by
  show toFloat (toDouble (((440 : Nat) : F) * 2.0) * PI / ((48000 : Nat) : F)) = _
  rw [toFloat_exact, toDouble_exact]
  norm_num

theorem fresh_currentVolume :
    (connectAudioWorkletProcessor : WorkletNode F).state.currentVolume = 0.3 := rfl

theorem smoothParameters_currentVolume (st : OscillatorState F) (f v : F) :
    (smoothParameters st f v).currentVolume = st.currentVolume * 0.95 + 0.05 * v := rfl

/-- A call on a well-formed block returns, and its state is the smoothed state with the
phase advanced by all the samples of all the buses and wrapped. -/
theorem ProcessAudio_block [FloorRing F] (sin : F → F) (blk : Block F)
    (st : OscillatorState F) (f v : F)
    (hwf : blk.WellFormed) (hc : blk.Carries f v) :
    ∃ m, ProcessAudio sin fmod blk.numOutputs blk.outputs blk.params st = some (true, m) ∧
      m.state =
        { phase := fmod
            (st.phase + (samplesBefore blk.outputs blk.numOutputs : F) *
              (smoothParameters st f v).phaseIncrement) (2 * PI)
          phaseIncrement := (smoothParameters st f v).phaseIncrement
          currentVolume := (smoothParameters st f v).currentVolume } := by
  obtain ⟨m, hm, hst, _⟩ := ProcessAudio_spec sin fmod blk.numOutputs blk.outputs blk.params
    st f v hc.1 hc.2 (le_of_eq hwf.1) (exact_fits blk.outputs hwf.2)
  rw [toFloat_exact, toDouble_exact, phaseAfter_eq, two_PI_eq] at hst
  exact ⟨m, hm, hst⟩

theorem smooth_inRange (st : OscillatorState F) (f v : F) (h : st.InRange)
    (hf1 : 20 ≤ f) (hv0 : 0 ≤ v) (hv1 : v ≤ 1) :
    0 < (smoothParameters st f v).phaseIncrement ∧
      0 ≤ (smoothParameters st f v).currentVolume ∧
      (smoothParameters st f v).currentVolume ≤ 1 := by
  obtain ⟨h1, h2, h3⟩ := h
  have hT : 0 < f * 2 * PI / 48000 := by
    have hf : (0 : F) < f := by linarith
    have := PI_pos (F := F)
    positivity
  rw [smoothParameters_phaseIncrement, smoothParameters_currentVolume]
  refine ⟨?_, ?_, ?_⟩
  · norm_num; linarith
  · norm_num; linarith
  · norm_num; linarith

theorem fresh_inRange : (connectAudioWorkletProcessor : WorkletNode F).state.InRange := by
  have h1 := PI_pos (F := F)
  refine ⟨?_, ?_, ?_⟩
  · rw [fresh_phaseIncrement]
    positivity
  · rw [fresh_currentVolume]
    norm_num
  · rw [fresh_currentVolume]
    norm_num

/-- Host-clamped, well-formed blocks keep the smoothed fields in range and the phase in
`[0, 2 * PI)`. -/
theorem processBlocks_inv [FloorRing F] (sin : F → F) (blocks : List (Block F))
    (hgood : ∀ blk ∈ blocks, blk.WellFormed ∧ blk.Clamped) (st : OscillatorState F)
    (hr : st.InRange) (hp0 : 0 ≤ st.phase) (hp1 : st.phase < 2 * PI) :
    ∃ st2, processBlocks sin fmod st blocks = some st2 ∧ st2.InRange ∧
      0 ≤ st2.phase ∧ st2.phase < 2 * PI := by
  induction blocks generalizing st with
  | nil => exact ⟨st, rfl, hr, hp0, hp1⟩
  | cons blk rest ih =>
    obtain ⟨hwf, f, v, hc, hf1, _, hv0, hv1⟩ := hgood blk (List.mem_cons_self _ _)
    obtain ⟨m, hm, hst⟩ := ProcessAudio_block sin blk st f v hwf hc
    have hs := smooth_inRange st f v hr hf1 hv0 hv1
    have h2pi : (0 : F) < 2 * PI := by have := PI_pos (F := F); linarith
    have hacc : 0 ≤ st.phase + (samplesBefore blk.outputs blk.numOutputs : F) *
        (smoothParameters st f v).phaseIncrement := by
      have : (0 : F) ≤ (samplesBefore blk.outputs blk.numOutputs : F) := Nat.cast_nonneg _
      have := mul_nonneg this hs.1.le
      linarith
    have hrest := ih (fun b hb => hgood b (List.mem_cons_of_mem _ hb)) m.state
      (by rw [hst]; exact hs)
      (by rw [hst]; exact fmod_nonneg _ _ hacc h2pi)
      (by rw [hst]; exact fmod_lt _ _ hacc h2pi)
    simpa [processBlocks, hm] using hrest

/-- A call on buses that all hold `S` samples per channel, in exact arithmetic. -/
theorem ProcessAudio_uniform [FloorRing F] (sin : F → F) (outputs : List (AudioSampleFrame F))
    (S : Nat) (params : List (AudioParamFrame F)) (st : OscillatorState F) (f v : F)
    (hf : readParam params 0 = some f) (hv : readParam params 1 = some v)
    (hS : ∀ fr ∈ outputs, fr.samplesPerChannel = S) (hexact : ∀ fr ∈ outputs, fr.Exact) :
    ∃ m, ProcessAudio sin fmod outputs.length outputs params st = some (true, m) ∧
      m.state =
        { phase := fmod
            (st.phase + ((outputs.length * S : Nat) : F) *
              (smoothParameters st f v).phaseIncrement) (2 * PI)
          phaseIncrement := (smoothParameters st f v).phaseIncrement
          currentVolume := (smoothParameters st f v).currentVolume } ∧
      (∀ o fr, outputs[o]? = some fr → ∀ ch < fr.numberOfChannels, ∀ i < S,
        slot m.outputs o (ch * S + i) =
          some (sin (st.phase + ((o * S + i : Nat) : F) *
              (smoothParameters st f v).phaseIncrement) *
            (smoothParameters st f v).currentVolume)) := by
  obtain ⟨m, hm, hst, _, hval⟩ :=
    ProcessAudio_uniform_any sin fmod outputs S params st f v hf hv hS hexact
  rw [toFloat_exact, toDouble_exact, phaseAfter_eq, two_PI_eq] at hst
  refine ⟨m, hm, hst, ?_⟩
  intro o fr hfr ch hch i hi
  rw [hval o fr hfr ch hch i hi, toFloat_exact, toDouble_exact, phaseAfter_eq]

end Calls

/-! ## Properties of the specification -/

section Structure

variable {F D : Type} [Add F] [Mul F] [OfScientific F]
  [Mul D] [Div D] [NatCast D] [OfScientific D] [Precision F D]

/-- C1, amended (channel fan-out): on two buses of two channels each, `S` samples per channel,
for every sample index `i < S` the two channel slots of bus 0 hold one value, the sine of the
phase after `i` increments times the volume, and the two channel slots of bus 1 hold one
value, that of the phase after `S + i` increments: bus 1 is `S` samples further in the
waveform.  This holds for any arithmetic on the samples. -/
theorem C1_fan_out (sin : D → D) (fm : D → D → D) (st : OscillatorState F) (f v : F)
    (params : List (AudioParamFrame F)) (S : Nat) (bus0 bus1 : AudioSampleFrame F)
    (h0 : bus0.numberOfChannels = 2 ∧ bus0.samplesPerChannel = S ∧ bus0.Exact)
    (h1 : bus1.numberOfChannels = 2 ∧ bus1.samplesPerChannel = S ∧ bus1.Exact)
    (hf : readParam params 0 = some f) (hv : readParam params 1 = some v) :
    ∃ m, ProcessAudio sin fm 2 [bus0, bus1] params st = some (true, m) ∧
      ∀ i < S,
        slot m.outputs 0 (0 * S + i) =
          some (toFloat (sin (toDouble
              (phaseAfter st.phase (smoothParameters st f v).phaseIncrement i))) *
            (smoothParameters st f v).currentVolume) ∧
        slot m.outputs 0 (1 * S + i) = slot m.outputs 0 (0 * S + i) ∧
        slot m.outputs 1 (0 * S + i) =
          some (toFloat (sin (toDouble
              (phaseAfter st.phase (smoothParameters st f v).phaseIncrement (S + i)))) *
            (smoothParameters st f v).currentVolume) ∧
        slot m.outputs 1 (1 * S + i) = slot m.outputs 1 (0 * S + i) := by
  obtain ⟨m, hm, _, _, hval⟩ := ProcessAudio_uniform_any sin fm [bus0, bus1] S params st f v
    hf hv
    (fun fr hfr => by
      simp only [List.mem_cons, List.mem_singleton, List.not_mem_nil, or_false] at hfr
      rcases hfr with rfl | rfl
      · exact h0.2.1
      · exact h1.2.1)
    (fun fr hfr => by
      simp only [List.mem_cons, List.mem_singleton, List.not_mem_nil, or_false] at hfr
      rcases hfr with rfl | rfl
      · exact h0.2.2
      · exact h1.2.2)
  refine ⟨m, hm, ?_⟩
  intro i hi
  have a0 := hval 0 bus0 rfl 0 (by rw [h0.1]; decide) i hi
  have a1 := hval 0 bus0 rfl 1 (by rw [h0.1]; decide) i hi
  have b0 := hval 1 bus1 rfl 0 (by rw [h1.1]; decide) i hi
  have b1 := hval 1 bus1 rfl 1 (by rw [h1.1]; decide) i hi
  simp only [Nat.zero_mul, Nat.zero_add, Nat.one_mul] at a0 a1 b0 b1 ⊢
  exact ⟨a0, a1.trans a0.symm, b0, b1.trans b0.symm⟩

/-- C6 (exact, in-bounds writes): on buses whose `data` has exactly `C_o * S_o` slots the
call returns (no checked store is out of range), whatever the targets and whatever the
arithmetic on the samples.  Every offset of every bus is stored to exactly once, as
`ch * S_o + i` with `ch < C_o` and `i < S_o`; every channel of every bus receives exactly
`S_o` stores; every store goes to an offset below `C_o * S_o` of one of the buses.  The
stores are writes: after the call every bus has its shape and length, and each of its
offsets below `C_o * S_o` holds the sample of its index `i`, the sine of the phase after the
samples before it times the smoothed volume, whatever it held before. -/
theorem C6_exact_writes (sin : D → D) (fm : D → D → D) (outputs : List (AudioSampleFrame F))
    (params : List (AudioParamFrame F)) (st : OscillatorState F) (f v : F)
    (hf : readParam params 0 = some f) (hv : readParam params 1 = some v)
    (hexact : ∀ fr ∈ outputs, fr.Exact) :
    ∃ m, ProcessAudio sin fm outputs.length outputs params st = some (true, m) ∧
      (∀ o fr, outputs[o]? = some fr → ∀ idx < fr.data.length,
        List.count (o, idx) m.stores = 1) ∧
      (∀ o fr, outputs[o]? = some fr → ∀ ch < fr.numberOfChannels,
        ∀ i < fr.samplesPerChannel,
          List.count (o, ch * fr.samplesPerChannel + i) m.stores = 1) ∧
      (∀ o fr, outputs[o]? = some fr → ∀ ch < fr.numberOfChannels,
        (m.stores.filter (fun p => decide (p.1 = o ∧ ch * fr.samplesPerChannel ≤ p.2 ∧
          p.2 < ch * fr.samplesPerChannel + fr.samplesPerChannel))).length =
            fr.samplesPerChannel) ∧
      (∀ p ∈ m.stores, ∃ fr, outputs[p.1]? = some fr ∧
        p.2 < fr.numberOfChannels * fr.samplesPerChannel ∧ p.2 < fr.data.length) ∧
      m.outputs.length = outputs.length ∧
      (∀ o fr, outputs[o]? = some fr →
        ∃ fr2, m.outputs[o]? = some fr2 ∧
          fr2.numberOfChannels = fr.numberOfChannels ∧
          fr2.samplesPerChannel = fr.samplesPerChannel ∧
          fr2.data.length = fr.data.length ∧
          (∀ ch < fr.numberOfChannels, ∀ i < fr.samplesPerChannel,
            fr2.data[ch * fr.samplesPerChannel + i]? =
              some (toFloat (sin (toDouble (phaseAfter st.phase
                  (smoothParameters st f v).phaseIncrement (samplesBefore outputs o + i)))) *
                (smoothParameters st f v).currentVolume)) ∧
          (∀ idx < fr.data.length,
            fr2.data[idx]? =
              some (toFloat (sin (toDouble (phaseAfter st.phase
                  (smoothParameters st f v).phaseIncrement
                  (samplesBefore outputs o + idx % fr.samplesPerChannel)))) *
                (smoothParameters st f v).currentVolume))) := by
  obtain ⟨m, hm, _, hsto, hlen, _, hdone⟩ :=
    ProcessAudio_spec sin fm outputs.length outputs params st f v hf hv (Nat.le_refl _)
      (exact_fits outputs hexact)
  have hnodup : m.stores.Nodup := by rw [hsto]; exact nodup_blockStores _ _
  have hmem : ∀ p : Nat × Nat, p ∈ m.stores ↔ ∃ fr, outputs[p.1]? = some fr ∧
      p.2 < fr.numberOfChannels * fr.samplesPerChannel := by
    intro p
    rw [hsto, mem_blockStores]
    constructor
    · rintro ⟨_, h⟩; exact h
    · rintro ⟨fr, hfr, hk⟩
      exact ⟨(List.getElem?_eq_some_iff.mp hfr).1, fr, hfr, hk⟩
  have hEx : ∀ (o : Nat) (fr : AudioSampleFrame F), outputs[o]? = some fr →
      fr.data.length = fr.numberOfChannels * fr.samplesPerChannel :=
    fun o fr hfr => hexact fr (List.mem_iff_getElem?.mpr ⟨o, hfr⟩)
  refine ⟨m, hm, ?_, ?_, ?_, ?_, hlen, ?_⟩
  · intro o fr hfr idx hidx
    exact count_one_of_nodup _ _ hnodup
      ((hmem (o, idx)).mpr ⟨fr, hfr, by rw [← hEx o fr hfr]; exact hidx⟩)
  · intro o fr hfr ch hch i hi
    exact count_one_of_nodup _ _ hnodup
      ((hmem (o, ch * fr.samplesPerChannel + i)).mpr ⟨fr, hfr, offset_lt hch hi⟩)
  · intro o fr hfr ch hch
    have hperm : List.Perm
        (m.stores.filter (fun p => decide (p.1 = o ∧ ch * fr.samplesPerChannel ≤ p.2 ∧
          p.2 < ch * fr.samplesPerChannel + fr.samplesPerChannel)))
        ((List.range fr.samplesPerChannel).map
          (fun i => (o, ch * fr.samplesPerChannel + i))) := by
      rw [List.perm_ext_iff_of_nodup (hnodup.filter _)
        (List.Nodup.map_on (fun a _ b _ hab => by
          simp only [Prod.mk.injEq, true_and] at hab
          omega) (List.nodup_range _))]
      intro p
      simp only [List.mem_filter, decide_eq_true_eq, List.mem_map, List.mem_range]
      constructor
      · rintro ⟨_, h1, h2, h3⟩
        refine ⟨p.2 - ch * fr.samplesPerChannel, by omega, ?_⟩
        rw [← h1]
        exact Prod.ext rfl (by simp only; omega)
      · rintro ⟨i, hi, rfl⟩
        refine ⟨(hmem (o, ch * fr.samplesPerChannel + i)).mpr ⟨fr, hfr, offset_lt hch hi⟩,
          rfl, ?_, ?_⟩
        · simp only; omega
        · simp only; omega
    rw [hperm.length_eq, List.length_map, List.length_range]
  · intro p hp
    obtain ⟨fr, hfr, hk⟩ := (hmem p).mp hp
    exact ⟨fr, hfr, hk, by rw [hEx p.1 fr hfr]; exact hk⟩
  · intro o fr hfr
    have ho : o < outputs.length := (List.getElem?_eq_some_iff.mp hfr).1
    obtain ⟨fr2, h2, hC, hS, hL, hval, _⟩ := hdone o ho fr hfr
    refine ⟨fr2, h2, hC, hS, hL, fun ch hch i hi => hval i hi ch hch, ?_⟩
    intro idx hidx
    rw [hEx o fr hfr] at hidx
    obtain ⟨i, hi, ch, hch, e⟩ := offset_split hidx
    have hmod : idx % fr.samplesPerChannel = i := by
      rw [e]; exact Nat.mul_add_mod_of_lt hi
    rw [hmod, e]
    exact hval i hi ch hch

end Structure

section Claims

variable {F : Type} [LinearOrderedField F]

/-- C1, amended, on two stereo buses of three samples and the default instance. -/
theorem C1_fan_out_witness :
    ((filledFrame 2 3 0 : AudioSampleFrame ℝ).numberOfChannels = 2 ∧
        (filledFrame 2 3 0 : AudioSampleFrame ℝ).samplesPerChannel = 3 ∧
        (filledFrame 2 3 0 : AudioSampleFrame ℝ).Exact) ∧
      readParam (paramsOf (440 : ℝ) 0.3) 0 = some 440 ∧
      readParam (paramsOf (440 : ℝ) 0.3) 1 = some 0.3 ∧
      ∃ m, ProcessAudio Real.sin fmod 2 [filledFrame 2 3 0, filledFrame 2 3 0]
          (paramsOf 440 0.3) (connectAudioWorkletProcessor : WorkletNode ℝ).state
            = some (true, m) ∧
        slot m.outputs 0 (1 * 3 + 2) = slot m.outputs 0 (0 * 3 + 2) ∧
        slot m.outputs 1 (1 * 3 + 2) = slot m.outputs 1 (0 * 3 + 2) := by
  have hb : (filledFrame 2 3 0 : AudioSampleFrame ℝ).numberOfChannels = 2 ∧
      (filledFrame 2 3 0 : AudioSampleFrame ℝ).samplesPerChannel = 3 ∧
      (filledFrame 2 3 0 : AudioSampleFrame ℝ).Exact := ⟨rfl, rfl, filledFrame_exact 2 3 0⟩
  obtain ⟨m, hm, hval⟩ := C1_fan_out Real.sin fmod
    (connectAudioWorkletProcessor : WorkletNode ℝ).state
    440 0.3 (paramsOf 440 0.3) 3 (filledFrame 2 3 0) (filledFrame 2 3 0) hb hb rfl rfl
  obtain ⟨_, e0, _, e1⟩ := hval 2 (by decide)
  exact ⟨hb, rfl, rfl, m, hm, e0, e1⟩

/-- C1, as stated, fails: on two stereo buses of one sample each the default instance writes
`sin 0 * 0.3 = 0` to bus 0 and `sin d * 0.3 > 0` to bus 1 at the same sample index. -/
theorem C1_counterexample :
    ∃ m, ProcessAudio Real.sin fmod 2 [filledFrame 2 1 0, filledFrame 2 1 0] (paramsOf 440 0.3)
        (connectAudioWorkletProcessor : WorkletNode ℝ).state = some (true, m) ∧
      slot m.outputs 0 (0 * 1 + 0) ≠ slot m.outputs 1 (0 * 1 + 0) := by
  obtain ⟨m, hm, _, hval⟩ := ProcessAudio_uniform Real.sin
    [(filledFrame 2 1 0 : AudioSampleFrame ℝ), filledFrame 2 1 0] 1 (paramsOf 440 0.3)
    (connectAudioWorkletProcessor : WorkletNode ℝ).state 440 0.3 rfl rfl
    (fun fr hfr => by
      simp only [List.mem_cons, List.mem_singleton, List.not_mem_nil, or_false, or_self] at hfr
      rw [hfr]; rfl)
    (fun fr hfr => by
      simp only [List.mem_cons, List.mem_singleton, List.not_mem_nil, or_false, or_self] at hfr
      rw [hfr]; exact filledFrame_exact 2 1 0)
  refine ⟨m, hm, ?_⟩
  rw [hval 0 (filledFrame 2 1 0) rfl 0 (by decide) 0 (by decide),
    hval 1 (filledFrame 2 1 0) rfl 0 (by decide) 0 (by decide)]
  simp only [smoothParameters_phaseIncrement, smoothParameters_currentVolume,
    fresh_phase, fresh_phaseIncrement, fresh_currentVolume]
  have hpi : (0 : ℝ) < PI := PI_pos
  have hPI3 : (PI : ℝ) < 4 := by unfold PI; norm_num
  have hd : (440 : ℝ) * 2 * PI / 48000 * 0.95 + 0.05 * (440 * 2 * PI / 48000) =
      PI * (11 / 600) := by
    ring
  have ha : (0.3 : ℝ) * 0.95 + 0.05 * 0.3 = 0.3 := by norm_num
  rw [hd, ha]
  have hsin : 0 < Real.sin (PI * (11 / 600)) :=
    Real.sin_pos_of_pos_of_lt_pi (by positivity) (by
      have := Real.pi_gt_three
      nlinarith)
  intro h
  have h2 := Option.some.inj h
  norm_num at h2
  linarith

/-- C6 on a stereo bus of three samples and a mono bus of two that hold 7 everywhere, with
targets far outside the host ranges: offset 4 of bus 0 is stored to once and no longer holds
7, offset 2 of bus 1 is never stored to. -/
theorem C6_exact_writes_witness :
    readParam (paramsOf (-5 : ℚ) 1000000) 0 = some (-5) ∧
      readParam (paramsOf (-5 : ℚ) 1000000) 1 = some 1000000 ∧
      (∀ fr ∈ [(filledFrame 2 3 7 : AudioSampleFrame ℚ), filledFrame 1 2 7], fr.Exact) ∧
      ∃ m, ProcessAudio (fun x => x) fmod 2 [filledFrame 2 3 7, filledFrame 1 2 7]
          (paramsOf (-5) 1000000) (connectAudioWorkletProcessor : WorkletNode ℚ).state
            = some (true, m) ∧
        List.count (0, 4) m.stores = 1 ∧ (1, 2) ∉ m.stores ∧
        slot [(filledFrame 2 3 7 : AudioSampleFrame ℚ), filledFrame 1 2 7] 0 4 = some 7 ∧
        ∃ x, slot m.outputs 0 4 = some x ∧ 7 < x := by
  have hE : ∀ fr ∈ [(filledFrame 2 3 7 : AudioSampleFrame ℚ), filledFrame 1 2 7],
      fr.Exact := by
    intro fr hfr
    simp only [List.mem_cons, List.mem_singleton, List.not_mem_nil, or_false] at hfr
    rcases hfr with rfl | rfl
    · exact filledFrame_exact 2 3 7
    · exact filledFrame_exact 1 2 7
  obtain ⟨m, hm, hcount, _, _, hin, _, hdata⟩ := C6_exact_writes (fun x => x) fmod
    [(filledFrame 2 3 7 : AudioSampleFrame ℚ), filledFrame 1 2 7] (paramsOf (-5) 1000000)
    (connectAudioWorkletProcessor : WorkletNode ℚ).state (-5) 1000000 rfl rfl hE
  obtain ⟨fr2, h2, _, _, _, _, hidx⟩ := hdata 0 (filledFrame 2 3 7) rfl
  have h4 := hidx 4 (by decide)
  refine ⟨rfl, rfl, hE, m, hm, hcount 0 (filledFrame 2 3 7) rfl 4 (by decide), ?_, ?_, ?_⟩
  · intro hmem
    obtain ⟨fr, hfr, hlt, _⟩ := hin (1, 2) hmem
    have e : fr = filledFrame 1 2 7 := (Option.some.inj hfr).symm
    rw [e] at hlt
    exact absurd hlt (by decide)
  · decide
  · refine ⟨_, (slot_eq m.outputs 0 4 fr2 h2).trans h4, ?_⟩
    rw [toFloat_exact, toDouble_exact, phaseAfter_eq, smoothParameters_phaseIncrement,
      smoothParameters_currentVolume, fresh_phase, fresh_phaseIncrement, fresh_currentVolume]
    simp only [samplesBefore_zero, filledFrame, PI]
    norm_num

/-- C7 (construction defaults): the state `connectAudioWorkletProcessor` creates has phase 0,
volume 0.3 and increment `440 * 2 * PI / 48000` with `SAMPLE_RATE = 48000`; this is the
target increment `ProcessAudio` computes for a 440 Hz target, so that a 440 Hz block leaves
the increment where it is. -/
theorem C7_construction_defaults [FloorRing F] :
    (connectAudioWorkletProcessor : WorkletNode F).state.phase = 0 ∧
      (connectAudioWorkletProcessor : WorkletNode F).state.currentVolume = 0.3 ∧
      (connectAudioWorkletProcessor : WorkletNode F).state.phaseIncrement =
        440 * (2 * PI) / 48000 ∧
      SAMPLE_RATE = 48000 ∧
      (connectAudioWorkletProcessor : WorkletNode F).state.phaseIncrement =
        targetPhaseIncrementOf 440 ∧
      ∀ (sin : F → F) (v : F), ∃ m,
        ProcessAudio sin fmod 0 [] (paramsOf 440 v)
          (connectAudioWorkletProcessor : WorkletNode F).state = some (true, m) ∧
        m.state.phaseIncrement =
          (connectAudioWorkletProcessor : WorkletNode F).state.phaseIncrement := by
  refine ⟨fresh_phase, fresh_currentVolume, ?_, rfl, ?_, ?_⟩
  · rw [fresh_phaseIncrement]
    ring
  · show toFloat (toDouble (((440 : Nat) : F) * 2.0) * PI / ((SAMPLE_RATE : Nat) : F)) =
      toFloat (toDouble ((440 : F) * 2.0) * PI / ((SAMPLE_RATE : Nat) : F))
    norm_num
  · intro sin v
    obtain ⟨m, hm, hst, _⟩ := ProcessAudio_spec sin fmod 0 [] (paramsOf 440 v)
      (connectAudioWorkletProcessor : WorkletNode F).state 440 v rfl rfl (Nat.le_refl _)
      (fun fr hfr => by simp at hfr)
    refine ⟨m, hm, ?_⟩
    rw [hst]
    simp only [smoothParameters_phaseIncrement, fresh_phaseIncrement]
    norm_num
    ring

/-- C8 (state range invariant): `phaseIncrement > 0` and `0 ≤ currentVolume ≤ 1` hold for the
freshly constructed state, are preserved by every call on a well-formed block whose targets
lie in [20, 20000] and [0, 1], and so hold after every sequence of such calls on a
fresh instance. -/
theorem C8_state_range [FloorRing F] (sin : F → F) (st : OscillatorState F)
    (hst : st.InRange)
    (blk : Block F) (hblk : blk.WellFormed ∧ blk.Clamped) (blocks : List (Block F))
    (hgood : ∀ b ∈ blocks, b.WellFormed ∧ b.Clamped) :
    (0 < (connectAudioWorkletProcessor : WorkletNode F).state.phaseIncrement ∧
      0 ≤ (connectAudioWorkletProcessor : WorkletNode F).state.currentVolume ∧
      (connectAudioWorkletProcessor : WorkletNode F).state.currentVolume ≤ 1) ∧
    (∃ m, ProcessAudio sin fmod blk.numOutputs blk.outputs blk.params st = some (true, m) ∧
      0 < m.state.phaseIncrement ∧ 0 ≤ m.state.currentVolume ∧
      m.state.currentVolume ≤ 1) ∧
    (∃ st2, processBlocks sin fmod (connectAudioWorkletProcessor : WorkletNode F).state blocks
        = some st2 ∧
      0 < st2.phaseIncrement ∧ 0 ≤ st2.currentVolume ∧ st2.currentVolume ≤ 1) := by
  refine ⟨fresh_inRange, ?_, ?_⟩
  · obtain ⟨hwf, f, v, hc, hf1, _, hv0, hv1⟩ := hblk
    obtain ⟨m, hm, hm2⟩ := ProcessAudio_block sin blk st f v hwf hc
    refine ⟨m, hm, ?_⟩
    rw [hm2]
    exact smooth_inRange st f v hst hf1 hv0 hv1
  · have h2pi : (0 : F) < 2 * PI := by have := PI_pos (F := F); linarith
    obtain ⟨st2, hrun, hr, _, _⟩ := processBlocks_inv sin blocks hgood
      (connectAudioWorkletProcessor : WorkletNode F).state fresh_inRange
      (le_of_eq fresh_phase.symm) (by rw [fresh_phase]; exact h2pi)
    exact ⟨st2, hrun, hr⟩

/-- C8 on the default instance and two clamped blocks, 20 Hz at volume 0 and 20000 Hz at
volume 1. -/
theorem C8_state_range_witness :
    (connectAudioWorkletProcessor : WorkletNode ℚ).state.InRange ∧
      ((scenarioBlock 1 4 0 (20 : ℚ) 0).WellFormed ∧
        (scenarioBlock 1 4 0 (20 : ℚ) 0).Clamped) ∧
      (∀ b ∈ [scenarioBlock 1 4 0 (20 : ℚ) 0, scenarioBlock 2 3 0 20000 1],
        b.WellFormed ∧ b.Clamped) ∧
      ∃ st2, processBlocks (fun x => x) fmod
          (connectAudioWorkletProcessor : WorkletNode ℚ).state
          [scenarioBlock 1 4 0 (20 : ℚ) 0, scenarioBlock 2 3 0 20000 1] = some st2 ∧
        0 < st2.phaseIncrement ∧ 0 ≤ st2.currentVolume ∧ st2.currentVolume ≤ 1 := by
  have h1 : (scenarioBlock 1 4 0 (20 : ℚ) 0).WellFormed ∧
      (scenarioBlock 1 4 0 (20 : ℚ) 0).Clamped :=
    ⟨scenarioBlock_wellFormed _ _ _ _ _,
      20, 0, ⟨rfl, rfl⟩, by norm_num, by norm_num, by norm_num, by norm_num⟩
  have h2 : (scenarioBlock 2 3 0 (20000 : ℚ) 1).WellFormed ∧
      (scenarioBlock 2 3 0 (20000 : ℚ) 1).Clamped :=
    ⟨scenarioBlock_wellFormed _ _ _ _ _,
      20000, 1, ⟨rfl, rfl⟩, by norm_num, by norm_num, by norm_num, by norm_num⟩
  have hgood : ∀ b ∈ [scenarioBlock 1 4 0 (20 : ℚ) 0, scenarioBlock 2 3 0 20000 1],
      b.WellFormed ∧ b.Clamped := by
    intro b hb
    simp only [List.mem_cons, List.mem_singleton, List.not_mem_nil, or_false] at hb
    rcases hb with rfl | rfl
    · exact h1
    · exact h2
  exact ⟨fresh_inRange, h1, hgood,
    (C8_state_range (fun x => x) _ fresh_inRange _ h1 _ hgood).2.2⟩

/-- C2 (phase boundedness): on an instance created by `connectAudioWorkletProcessor`, after
each call of a sequence of calls on well-formed blocks of any shape whose targets lie in
[20, 20000] and [0, 1], the phase is in `[0, 2 * PI)`, one period of the program. -/
theorem C2_phase_bounded [FloorRing F] (sin : F → F) (blocks : List (Block F))
    (hgood : ∀ b ∈ blocks, b.WellFormed ∧ b.Clamped) (k : Nat) :
    ∃ st2, processBlocks sin fmod (connectAudioWorkletProcessor : WorkletNode F).state
        (blocks.take k) = some st2 ∧
      0 ≤ st2.phase ∧ st2.phase < 2 * PI := by
  have h2pi : (0 : F) < 2 * PI := by have := PI_pos (F := F); linarith
  obtain ⟨st2, hrun, _, h0, h1⟩ := processBlocks_inv sin (blocks.take k)
    (fun b hb => hgood b (List.mem_of_mem_take hb))
    (connectAudioWorkletProcessor : WorkletNode F).state fresh_inRange
    (le_of_eq fresh_phase.symm) (by rw [fresh_phase]; exact h2pi)
  exact ⟨st2, hrun, h0, h1⟩

/-- C2 on the default instance after the second of three blocks, the first of which runs
the phase through more than eight periods. -/
theorem C2_phase_bounded_witness :
    (∀ b ∈ [scenarioBlock 1 1000 0 (440 : ℚ) 0.3, scenarioBlock 2 3 0 20000 1,
        scenarioBlock 1 4 0 20 0], b.WellFormed ∧ b.Clamped) ∧
      ∃ st2, processBlocks (fun x => x) fmod
          (connectAudioWorkletProcessor : WorkletNode ℚ).state
          ([scenarioBlock 1 1000 0 (440 : ℚ) 0.3, scenarioBlock 2 3 0 20000 1,
            scenarioBlock 1 4 0 20 0].take 2) = some st2 ∧
        0 ≤ st2.phase ∧ st2.phase < 2 * PI := by
  have hgood : ∀ b ∈ [scenarioBlock 1 1000 0 (440 : ℚ) 0.3, scenarioBlock 2 3 0 20000 1,
      scenarioBlock 1 4 0 20 0], b.WellFormed ∧ b.Clamped := by
    intro b hb
    simp only [List.mem_cons, List.mem_singleton, List.not_mem_nil, or_false] at hb
    rcases hb with rfl | rfl | rfl
    · exact ⟨scenarioBlock_wellFormed _ _ _ _ _,
        440, 0.3, ⟨rfl, rfl⟩, by norm_num, by norm_num, by norm_num, by norm_num⟩
    · exact ⟨scenarioBlock_wellFormed _ _ _ _ _,
        20000, 1, ⟨rfl, rfl⟩, by norm_num, by norm_num, by norm_num, by norm_num⟩
    · exact ⟨scenarioBlock_wellFormed _ _ _ _ _,
        20, 0, ⟨rfl, rfl⟩, by norm_num, by norm_num, by norm_num, by norm_num⟩
  exact ⟨hgood, C2_phase_bounded (fun x => x) _ hgood 2⟩

end Claims

end WasmOscBank
